import Mathlib

/-!
Verification development for the video2x frame pipeline
(`video2x/upscaler.py`, `video2x/encoder.py`, `video2x/decoder.py`).

The Python code is shallowly embedded: real-valued quantities are
modelled by `ℚ`, PIL images by lists of channels of pixel values,
fallible operations (Python exceptions) by `Except`/`Option`, and the
stateful stage loops by explicit state passing / step functions.
-/

/-! ### Scale-ratio decomposition (`Upscaler.run`, upscaler.py lines 145-194)

`output_scale = max(output_width / width, output_height / height)`;
`remaining_scaling_ratio = math.ceil(output_scale)`; then a greedy loop
selects fixed supported ratios: first a single ratio `>= remaining`, else
the first ordered pair `(i, j)` with `i * j >= remaining`, else the
largest supported ratio, dividing `remaining` by the selected product
each time. -/

/-- `output_scale = max(output_width / width, output_height / height)`
(upscaler.py line 148). -/
def outputScale (output_width output_height width height : ℕ) : ℚ :=
  max ((output_width : ℚ) / (width : ℚ)) ((output_height : ℚ) / (height : ℚ))

/-- The inner `for ratio in supported_scaling_ratios: if ratio >= remaining`
scan (upscaler.py lines 172-176): first listed ratio at least `rem`. -/
def firstRatioGE (ratios : List ℕ) (rem : ℚ) : Option ℕ :=
  ratios.find? (fun r => decide (rem ≤ (r : ℚ)))

/-- The pair fallback scan (upscaler.py lines 180-188): `i` outer ascending,
`j` inner ascending, first pair with `i * j >= remaining`. -/
def firstPairGE (ratios : List ℕ) (rem : ℚ) : Option (ℕ × ℕ) :=
  ratios.findSome? (fun i =>
    (ratios.find? (fun j => decide (rem ≤ ((i * j : ℕ) : ℚ)))).map (fun j => (i, j)))

/-- One iteration of the `while remaining_scaling_ratio > 1` loop body
(upscaler.py lines 171-194): the ratios appended to `scaling_jobs` and the
new value of `remaining_scaling_ratio`. -/
def decompStep (ratios : List ℕ) (rem : ℚ) : List ℕ × ℚ :=
  match firstRatioGE ratios rem with
  | some r => ([r], rem / (r : ℚ))
  | none =>
    match firstPairGE ratios rem with
    | some (i, j) => ([i, j], rem / ((i * j : ℕ) : ℚ))
    | none => ([ratios.getLastD 0], rem / ((ratios.getLastD 0 : ℕ) : ℚ))

/-- The `while remaining_scaling_ratio > 1` loop (upscaler.py lines 171-194),
with explicit fuel; `none` means the fuel ran out before the loop finished. -/
def decompLoop (ratios : List ℕ) : ℕ → ℚ → Option (List ℕ)
  | 0, rem => if rem ≤ 1 then some [] else none
  | fuel + 1, rem =>
    if rem ≤ 1 then some []
    else
      (decompLoop ratios fuel (decompStep ratios rem).2).map
        (fun js => (decompStep ratios rem).1 ++ js)

/-- `scaling_jobs` as built by upscaler.py lines 163-194 from
`remaining_scaling_ratio = n`: `[supported_scaling_ratios[0]]` when `n == 1`,
otherwise the greedy loop. -/
def scalingJobs (ratios : List ℕ) (fuel : ℕ) (n : ℕ) : Option (List ℕ) :=
  if n = 1 then some [ratios.headD 0] else decompLoop ratios fuel (n : ℚ)

/-! ### Frame difference and the skip decision (upscaler.py lines 118-140) -/

/-- A raster image as its list of channels, each channel a list of pixel
values in `0..255`. -/
abbrev Img := List (List ℕ)

/-- Absolute difference of two pixel values (`ImageChops.difference` acts
pixel-wise and channel-wise). -/
def pixAbsDiff (a b : ℕ) : ℕ := max a b - min a b

/-- `ImageChops.difference(image0, image1)` (upscaler.py line 120). -/
def imageDifference (img0 img1 : Img) : Img :=
  List.zipWith (List.zipWith pixAbsDiff) img0 img1

/-- One entry of `ImageStat.Stat(...).mean`: the mean pixel value of a
channel. -/
def bandMean (band : List ℕ) : ℚ := (band.sum : ℚ) / (band.length : ℚ)

/-- `ImageStat.Stat(difference).mean` (upscaler.py line 121): the list of
per-channel means. -/
def statMeans (img : Img) : List ℚ := img.map bandMean

/-- `sum(difference_stat.mean) / (len(difference_stat.mean) * 255) * 100`
(upscaler.py lines 122-126). -/
def imageDiffPercent (img0 img1 : Img) : ℚ :=
  (statMeans (imageDifference img0 img1)).sum /
    (((statMeans (imageDifference img0 img1)).length : ℚ) * 255) * 100

/-- The value of `difference_ratio` at the skip test: initialised to `0` and
overwritten only when a previous image exists (upscaler.py lines 118-126). -/
def differenceRatioOf (image0 : Option Img) (image1 : Img) : ℚ :=
  match image0 with
  | none => 0
  | some img0 => imageDiffPercent img0 image1

/-- The spec's formula for the difference ratio: the average of the
per-channel mean absolute differences, divided by 255, scaled to a
percentage. Stated from the spec's words, to be compared with the
source-derived `imageDiffPercent`. -/
def specDiffPercent (img0 img1 : Img) : ℚ :=
  (statMeans (imageDifference img0 img1)).sum /
      ((statMeans (imageDifference img0 img1)).length : ℚ) / 255 * 100

/-- `if difference_ratio < difference_threshold:` — the guard deciding the
skip-reuse branch (upscaler.py line 130). -/
def upscalerSkipDecision (image0 : Option Img) (image1 : Img) (threshold : ℚ) : Bool :=
  decide (differenceRatioOf image0 image1 < threshold)

/-- The Shared Output Buffer index read inside the skip branch:
`processed_frames[frame_index - 1]` with Python integer arithmetic
(upscaler.py lines 138-140). -/
def skipBranchReadIndex (frame_index : ℕ) : ℤ := (frame_index : ℤ) - 1

/-- Python list indexing: non-negative indices address from the front,
negative indices wrap from the back, anything else is an `IndexError`
(`none`). -/
def pyListGet {α : Type} (l : List α) (i : ℤ) : Option α :=
  if 0 ≤ i then l.get? i.toNat
  else if (-i).toNat ≤ l.length then l.get? (l.length - (-i).toNat)
  else none

/-! ### Backend processor cache and GPU assignment
(upscaler.py lines 196-207 and 233-243) -/

inductive PyError where
  | zeroDivisionError
deriving DecidableEq

/-- Python `%`: raises `ZeroDivisionError` when the right operand is `0`.
The expression `gpuid = self.instance_number % self.num_gpus`
(upscaler.py line 202) has no guard against `num_gpus = 0`. -/
def pyMod (a b : ℕ) : Except PyError ℕ :=
  if b = 0 then Except.error PyError.zeroDivisionError else Except.ok (a % b)

/-- State of a worker's `processor_objects` dict: the cached
`(algorithm, ratio)` keys, plus the log of constructor invocations in
order. -/
structure WorkerCache where
  cache : List (String × ℕ)
  constructions : List (String × ℕ)
deriving DecidableEq

/-- One `for job in scaling_jobs` iteration (upscaler.py lines 196-207):
look up `(algorithm, job)`; on a miss, compute the GPU id with Python's
modulo and construct and cache a new processor object. -/
def runScalingJob (num_gpus instance_number : ℕ) (s : WorkerCache)
    (algorithm : String) (job : ℕ) : Except PyError WorkerCache :=
  if (algorithm, job) ∈ s.cache then Except.ok s
  else
    match pyMod instance_number num_gpus with
    | Except.error e => Except.error e
    | Except.ok _gpuid =>
      Except.ok ⟨s.cache ++ [(algorithm, job)], s.constructions ++ [(algorithm, job)]⟩

/-- A worker's processing of a sequence of `(algorithm, job)` keys,
threading `processor_objects`, which lives for the whole run loop. -/
def runScalingJobList (num_gpus instance_number : ℕ) (s : WorkerCache) :
    List (String × ℕ) → Except PyError WorkerCache
  | [] => Except.ok s
  | k :: ks =>
    match runScalingJob num_gpus instance_number s k.1 k.2 with
    | Except.error e => Except.error e
    | Except.ok s' => runScalingJobList num_gpus instance_number s' ks

/-- `num_nvidia_gpus` (upscaler.py lines 233-243): `0` when the
`nvidia-smi` subprocess cannot be spawned (the `except` branch), otherwise
one less than the number of `os.linesep`-separated pieces of its output. -/
def num_nvidia_gpus (spawn : Option (List String)) : ℕ :=
  match spawn with
  | none => 0
  | some lines => lines.length - 1

/-! ### Encode stage (`VideoEncoder.run`, encoder.py lines 141-166) -/

/-- Observable actions of one encode-loop consumption, in program order:
write the frame bytes to the encoder process input, clear the buffer slot,
increment the processed counter under its lock. -/
inductive EncAction (α : Type) where
  | write (i : ℕ) (f : α)
  | clear (i : ℕ)
  | increment
deriving DecidableEq

/-- Events of a run: some worker fills buffer slot `i`
(`processed_frames[frame_index] = image1`, upscaler.py line 215), or the
encoder thread executes one iteration of its `while` loop. -/
inductive EncEvent (α : Type) where
  | fill (i : ℕ) (f : α)
  | tick
deriving DecidableEq

/-- The encoder thread's state: its loop variables, the Shared Output
Buffer, the bytes written so far, and the log of performed actions. -/
structure EncState (α : Type) where
  running : Bool
  pause : Bool
  frame_index : ℕ
  processed : ℕ
  buffer : List (Option α)
  written : List α
  log : List (EncAction α)
deriving DecidableEq

/-- One iteration of `while self.running and frame_index < self.total_frames`
(encoder.py lines 144-166): pause check, empty-slot poll, otherwise
write, clear the slot, increment the counter, advance. -/
def encTick {α : Type} (total : ℕ) (s : EncState α) : EncState α :=
  if s.running = true ∧ s.frame_index < total then
    if s.pause = true then s
    else
      match s.buffer.getD s.frame_index none with
      | none => s
      | some image =>
        { s with
          written := s.written ++ [image]
          log := s.log ++ [EncAction.write s.frame_index image,
            EncAction.clear s.frame_index, EncAction.increment]
          buffer := s.buffer.set s.frame_index none
          processed := s.processed + 1
          frame_index := s.frame_index + 1 }
  else s

/-- Interleaving semantics: worker fills race with encoder iterations. -/
def encStep {α : Type} (total : ℕ) (s : EncState α) : EncEvent α → EncState α
  | EncEvent.fill i f => { s with buffer := s.buffer.set i (some f) }
  | EncEvent.tick => encTick total s

/-- A whole interleaved run. -/
def encRun {α : Type} (total : ℕ) (s : EncState α) (events : List (EncEvent α)) : EncState α :=
  events.foldl (encStep total) s

/-- The encoder's initial state: running, not paused, a pre-sized empty
Shared Output Buffer, counters at zero. -/
def encInit (α : Type) (total : ℕ) : EncState α :=
  ⟨true, false, 0, 0, List.replicate total none, [], []⟩

/-- The slot indices of the fill events of an event list. -/
def fillIndices {α : Type} : List (EncEvent α) → List ℕ
  | [] => []
  | EncEvent.fill i _ :: es => i :: fillIndices es
  | EncEvent.tick :: es => fillIndices es

/-- The action log of an in-order consumption of frames `0..k-1`: for each
index, a write, then a clear, then an increment. -/
def expectedLog {α : Type} (frames : List α) : ℕ → List (EncAction α)
  | 0 => []
  | k + 1 => expectedLog frames k ++
      (match frames.get? k with
       | some f => [EncAction.write k f, EncAction.clear k, EncAction.increment]
       | none => [])

/-- Invariant of the encoder thread relative to the decoded frame list:
indices are consumed in order, every consumed slot is cleared, every filled
slot holds its own frame. -/
def EncInv {α : Type} (frames : List α) (s : EncState α) : Prop :=
  s.running = true ∧ s.pause = false ∧
  s.buffer.length = frames.length ∧
  s.frame_index ≤ frames.length ∧
  s.processed = s.frame_index ∧
  s.written = frames.take s.frame_index ∧
  s.log = expectedLog frames s.frame_index ∧
  (∀ j, j < s.frame_index → s.buffer.getD j none = none) ∧
  (∀ j, s.buffer.getD j none ≠ none → s.buffer.getD j none = frames.get? j)

/-- Slot `i` has been handled: already consumed, or currently filled. -/
def coveredAt {α : Type} (s : EncState α) (i : ℕ) : Prop :=
  i < s.frame_index ∨ s.buffer.getD i none ≠ none

/-! ### Decode stage (`VideoDecoder.run`, decoder.py lines 128-175) -/

/-- The decoder's terminal exception: `Image.frombytes` raises `ValueError`
("not enough image data") on a short read. -/
inductive DecError where
  | valueError
deriving DecidableEq

/-- The decode loop (decoder.py lines 121-175) driven by the raw byte
stream of the decoding process: each iteration reads exactly
`3 * width * height` bytes; an empty read stops the stage cleanly with no
recorded error; a short read records `ValueError` as the stage's terminal
exception and stops without retrying; a full read emits one frame and
continues. Returns the emitted frames and the recorded exception. -/
def decoderLoop (w h : ℕ) (stream : List ℕ) : List (List ℕ) × Option DecError :=
  if h0 : (stream.take (3 * w * h)).length = 0 then ([], none)
  else if (stream.take (3 * w * h)).length < 3 * w * h then ([], some DecError.valueError)
  else
    let rest := decoderLoop w h (stream.drop (3 * w * h))
    (stream.take (3 * w * h) :: rest.1, rest.2)
termination_by stream.length
decreasing_by
  simp only [List.length_drop]
  simp only [List.length_take] at h0
  omega

/-! ### Helper lemmas for the decomposition -/

theorem mem_le_getLastD {l : List ℕ} (hs : l.Sorted (· ≤ ·)) {x : ℕ} (hx : x ∈ l) :
    x ≤ l.getLastD 0 := by
  induction l using List.reverseRecOn with
  | nil => simp at hx
  | append_singleton l' a _ =>
    rw [List.getLastD_concat]
    rw [List.Sorted, List.pairwise_append] at hs
    rcases List.mem_append.1 hx with h | h
    · exact hs.2.2 x h a (by simp)
    · simp at h
      omega

theorem find?_append_left_none {α : Type} {p : α → Bool} {l₁ l₂ : List α}
    (h : ∀ x ∈ l₁, p x = false) : (l₁ ++ l₂).find? p = l₂.find? p := by
  induction l₁ with
  | nil => simp
  | cons a t ih =>
    have ha := h a (by simp)
    simp only [List.cons_append, List.find?_cons, ha]
    exact ih (fun x hx => h x (by simp [hx]))

theorem firstRatioGE_split (l₁ l₂ : List ℕ) (r : ℕ) (rem : ℚ)
    (hlt : ∀ x ∈ l₁, (x : ℚ) < rem) (hr : rem ≤ (r : ℚ)) :
    firstRatioGE (l₁ ++ r :: l₂) rem = some r := by
  unfold firstRatioGE
  rw [find?_append_left_none (fun x hx => decide_eq_false (not_le.2 (hlt x hx)))]
  simp [List.find?_cons, hr]

theorem firstRatioGE_le {ratios : List ℕ} {rem : ℚ} {r : ℕ}
    (h : firstRatioGE ratios rem = some r) : rem ≤ (r : ℚ) ∧ r ∈ ratios := by
  unfold firstRatioGE at h
  refine ⟨?_, List.mem_of_find?_eq_some h⟩
  have := List.find?_some h
  simpa using this

theorem firstPairGE_le {ratios : List ℕ} {rem : ℚ} {i j : ℕ}
    (h : firstPairGE ratios rem = some (i, j)) :
    rem ≤ ((i * j : ℕ) : ℚ) ∧ i ∈ ratios ∧ j ∈ ratios := by
  unfold firstPairGE at h
  obtain ⟨a, ha, hfa⟩ := List.exists_of_findSome?_eq_some h
  rw [Option.map_eq_some'] at hfa
  obtain ⟨b, hb, hab⟩ := hfa
  injection hab with hab1 hab2
  subst hab1
  subst hab2
  refine ⟨?_, ha, List.mem_of_find?_eq_some hb⟩
  have := List.find?_some hb
  simpa using this

theorem decompStep_spec (ratios : List ℕ) (rem : ℚ)
    (hlast : 2 ≤ ratios.getLastD 0) (hrem : 1 < rem) :
    2 ≤ (decompStep ratios rem).1.prod ∧
    (decompStep ratios rem).2 = rem / (((decompStep ratios rem).1.prod : ℕ) : ℚ) := by
  unfold decompStep
  cases hfind : firstRatioGE ratios rem with
  | some r =>
    have h := (firstRatioGE_le hfind).1
    have hr : 2 ≤ r := by
      by_contra hc
      interval_cases r <;> simp_all <;> linarith
    simp [hr]
  | none =>
    cases hpair : firstPairGE ratios rem with
    | some ij =>
      obtain ⟨i, j⟩ := ij
      have h := (firstPairGE_le hpair).1
      have hij : 2 ≤ i * j := by
        by_contra hc
        interval_cases h' : i * j <;> simp_all <;> linarith
      simp [hij]
    | none =>
      constructor
      · simpa using hlast
      · simp

theorem decompLoop_le_one (ratios : List ℕ) (fuel : ℕ) {rem : ℚ} (h : rem ≤ 1) :
    decompLoop ratios fuel rem = some [] := by
  cases fuel <;> simp [decompLoop, h]

theorem decompLoop_succ (ratios : List ℕ) (fuel : ℕ) {rem : ℚ} (h : ¬rem ≤ 1) :
    decompLoop ratios (fuel + 1) rem =
      (decompLoop ratios fuel (decompStep ratios rem).2).map
        (fun js => (decompStep ratios rem).1 ++ js) := by
  simp [decompLoop, h]

/-- Soundness invariant of the loop: whatever job list it returns has product
at least the remaining ratio it started from. -/
theorem decompLoop_sound (ratios : List ℕ) (hlast : 2 ≤ ratios.getLastD 0) :
    ∀ (fuel : ℕ) (rem : ℚ) (js : List ℕ), 0 < rem →
      decompLoop ratios fuel rem = some js → rem ≤ (js.prod : ℚ) := by
  intro fuel
  induction fuel with
  | zero =>
    intro rem js hpos h
    simp only [decompLoop] at h
    by_cases h1 : rem ≤ 1
    · rw [if_pos h1] at h
      obtain rfl : js = [] := by simpa using h.symm
      simpa using h1
    · rw [if_neg h1] at h
      exact absurd h (by simp)
  | succ fuel ih =>
    intro rem js hpos h
    by_cases h1 : rem ≤ 1
    · rw [decompLoop_le_one ratios _ h1] at h
      obtain rfl : js = [] := by simpa using h.symm
      simpa using h1
    · rw [decompLoop_succ ratios fuel h1] at h
      rw [Option.map_eq_some'] at h
      obtain ⟨js', hjs', rfl⟩ := h
      obtain ⟨hp2, hstep⟩ := decompStep_spec ratios rem hlast (not_le.1 h1)
      have hppos : (0 : ℚ) < ((decompStep ratios rem).1.prod : ℚ) := by
        exact_mod_cast Nat.lt_of_lt_of_le Nat.zero_lt_two hp2
      have hdiv2 : 0 < (decompStep ratios rem).2 := by
        rw [hstep]
        exact div_pos hpos hppos
      have hrec := ih _ js' hdiv2 hjs'
      rw [hstep, div_le_iff₀ hppos] at hrec
      calc rem ≤ (js'.prod : ℚ) * ((decompStep ratios rem).1.prod : ℚ) := hrec
        _ = (((decompStep ratios rem).1 ++ js').prod : ℚ) := by
            rw [List.prod_append]
            push_cast
            ring

/-- Termination: sufficient fuel always exists because every loop iteration
divides the remaining ratio by a factor of at least `2`. -/
theorem decompLoop_total (ratios : List ℕ) (hlast : 2 ≤ ratios.getLastD 0) :
    ∀ (fuel : ℕ) (rem : ℚ), 0 < rem → rem ≤ 2 ^ fuel →
      ∃ js, decompLoop ratios fuel rem = some js := by
  intro fuel
  induction fuel with
  | zero =>
    intro rem hpos hle
    exact ⟨[], decompLoop_le_one ratios 0 (by simpa using hle)⟩
  | succ fuel ih =>
    intro rem hpos hle
    by_cases h1 : rem ≤ 1
    · exact ⟨[], decompLoop_le_one ratios _ h1⟩
    · obtain ⟨hp2, hstep⟩ := decompStep_spec ratios rem hlast (not_le.1 h1)
      have hppos : (0 : ℚ) < ((decompStep ratios rem).1.prod : ℚ) := by
        exact_mod_cast Nat.lt_of_lt_of_le Nat.zero_lt_two hp2
      have hdiv2 : 0 < (decompStep ratios rem).2 := by
        rw [hstep]
        exact div_pos hpos hppos
      have hle' : (decompStep ratios rem).2 ≤ 2 ^ fuel := by
        rw [hstep]
        refine le_trans (div_le_div_of_nonneg_left (le_of_lt hpos) two_pos ?_) ?_
        · exact_mod_cast hp2
        · rw [div_le_iff₀ two_pos]
          calc rem ≤ 2 ^ (fuel + 1) := hle
            _ = 2 ^ fuel * 2 := by ring
      obtain ⟨js', hjs'⟩ := ih _ hdiv2 hle'
      refine ⟨(decompStep ratios rem).1 ++ js', ?_⟩
      rw [decompLoop_succ ratios fuel h1, hjs']
      rfl

theorem find?_append_eq {α : Type} (p : α → Bool) (xs ys : List α) :
    (xs ++ ys).find? p =
      match xs.find? p with
      | some a => some a
      | none => ys.find? p := by
  induction xs with
  | nil => simp
  | cons a t ih =>
    cases hpa : p a <;> simp [List.find?_cons, hpa, ih]

theorem find?_map_pair (i : ℕ) (l : List ℕ) (q : ℕ × ℕ → Bool) :
    (l.map (fun j => (i, j))).find? q = (l.find? (fun j => q (i, j))).map (fun j => (i, j)) := by
  induction l with
  | nil => simp
  | cons a t ih =>
    cases hqa : q (i, a) <;> simp [List.find?_cons, hqa, ih]

/-- The nested pair loops of upscaler.py lines 180-188 scan the ordered
pairs of `ratios × ratios` in lexicographic order (outer index first)
and return the first pair whose product reaches `rem`. -/
theorem pairScan_eq (ratios : List ℕ) (rem : ℚ) :
    firstPairGE ratios rem =
      (ratios.flatMap (fun i => ratios.map (fun j => (i, j)))).find?
        (fun p => decide (rem ≤ ((p.1 * p.2 : ℕ) : ℚ))) := by
  unfold firstPairGE
  suffices h : ∀ l : List ℕ,
      l.findSome? (fun i =>
        (ratios.find? (fun j => decide (rem ≤ ((i * j : ℕ) : ℚ)))).map (fun j => (i, j))) =
      (l.flatMap (fun i => ratios.map (fun j => (i, j)))).find?
        (fun p => decide (rem ≤ ((p.1 * p.2 : ℕ) : ℚ))) by
    exact h ratios
  intro l
  induction l with
  | nil => simp
  | cons a t ih =>
    rw [List.flatMap_cons, find?_append_eq, find?_map_pair a ratios _, List.findSome?_cons]
    cases hfa : ratios.find? (fun j => decide (rem ≤ ((a * j : ℕ) : ℚ))) with
    | none => simpa [hfa] using ih
    | some j => simp [hfa]

/-- Step a of the loop: with the ratios split around the first single
sufficient ratio `r`, one iteration appends `r` and divides by `r`. -/
theorem decompLoop_first_single (l₁ l₂ : List ℕ) (r : ℕ) (rem : ℚ) (fuel : ℕ)
    (h1 : 1 < rem) (hlt : ∀ x ∈ l₁, (x : ℚ) < rem) (hr : rem ≤ (r : ℚ)) :
    decompLoop (l₁ ++ r :: l₂) (fuel + 1) rem =
      (decompLoop (l₁ ++ r :: l₂) fuel (rem / (r : ℚ))).map (fun js => r :: js) := by
  have hstep : decompStep (l₁ ++ r :: l₂) rem = ([r], rem / (r : ℚ)) := by
    unfold decompStep
    rw [firstRatioGE_split l₁ l₂ r rem hlt hr]
  rw [decompLoop_succ _ fuel (not_le.2 h1), hstep]
  rfl

/-- Step b of the loop: when no single ratio reaches `rem` and `(i, j)` is
the pair the scan selects, one iteration appends `i, j` and divides by
`i * j`. -/
theorem decompLoop_first_pair (ratios : List ℕ) (rem : ℚ) (i j fuel : ℕ)
    (h1 : 1 < rem) (hfind : firstRatioGE ratios rem = none)
    (hpair : firstPairGE ratios rem = some (i, j)) :
    decompLoop ratios (fuel + 1) rem =
      (decompLoop ratios fuel (rem / ((i * j : ℕ) : ℚ))).map (fun js => i :: j :: js) := by
  have hstep : decompStep ratios rem = ([i, j], rem / ((i * j : ℕ) : ℚ)) := by
    unfold decompStep
    rw [hfind, hpair]
  rw [decompLoop_succ _ fuel (not_le.2 h1), hstep]
  rfl

/-- If every supported ratio is `1` and more than a ratio of `1` remains,
every iteration of the loop leaves `remaining_scaling_ratio` unchanged, so
no amount of fuel finishes the loop. -/
theorem decompLoop_all_one (ratios : List ℕ) (hne : ratios ≠ [])
    (hone : ∀ r ∈ ratios, r = 1) :
    ∀ (fuel : ℕ) (rem : ℚ), 1 < rem → decompLoop ratios fuel rem = none := by
  have hlast1 : ratios.getLastD 0 = 1 := by
    induction ratios using List.reverseRecOn with
    | nil => exact absurd rfl hne
    | append_singleton l' a _ =>
      rw [List.getLastD_concat]
      exact hone a (by simp)
  have hstep : ∀ rem : ℚ, 1 < rem → decompStep ratios rem = ([1], rem) := by
    intro rem h
    unfold decompStep
    have hfind : firstRatioGE ratios rem = none := by
      unfold firstRatioGE
      rw [List.find?_eq_none]
      intro x hx
      rw [hone x hx]
      simpa using by linarith
    have hpair : firstPairGE ratios rem = none := by
      unfold firstPairGE
      rw [List.findSome?_eq_none_iff]
      intro i hi
      rw [Option.map_eq_none', List.find?_eq_none]
      intro j hj
      rw [hone i hi, hone j hj]
      simpa using by linarith
    rw [hfind, hpair, hlast1]
    norm_num
  intro fuel
  induction fuel with
  | zero =>
    intro rem h
    simp [decompLoop, not_le.2 h]
  | succ fuel ih =>
    intro rem h
    rw [decompLoop_succ ratios fuel (not_le.2 h), hstep rem h, ih rem h]
    rfl

/-! ### Claims C2, C3, C4, C10 about the decomposition -/

/-- Claim C2: for every non-empty ascending list of supported ratios with at
least one ratio `≥ 2` and every `output_scale` with `⌈output_scale⌉ ≥ 1`,
the decomposition terminates and produces a step list whose product is at
least `⌈output_scale⌉` (hence at least `output_scale`); when
`⌈output_scale⌉ = 1` the step list is exactly `[smallest supported ratio]`. -/
theorem claim_C2 (ratios : List ℕ) (scale : ℚ)
    (hsort : ratios.Sorted (· ≤ ·)) (hne : ratios ≠ [])
    (hpos : ∀ r ∈ ratios, 1 ≤ r) (h2 : ∃ r ∈ ratios, 2 ≤ r)
    (hceil : 1 ≤ ⌈scale⌉) :
    ∃ fuel js, scalingJobs ratios fuel ⌈scale⌉.toNat = some js ∧
      ⌈scale⌉.toNat ≤ js.prod ∧ scale ≤ (js.prod : ℚ) ∧
      (⌈scale⌉.toNat = 1 → js = [ratios.headD 0]) := by
  obtain ⟨r, hr, hr2⟩ := h2
  have hlast : 2 ≤ ratios.getLastD 0 := le_trans hr2 (mem_le_getLastD hsort hr)
  have hn1 : 1 ≤ ⌈scale⌉.toNat := by omega
  have hcast : ((⌈scale⌉.toNat : ℕ) : ℚ) = ((⌈scale⌉ : ℤ) : ℚ) := by
    exact_mod_cast congrArg (fun z => ((z : ℤ) : ℚ)) (Int.toNat_of_nonneg (by omega))
  have hscale_le : scale ≤ ((⌈scale⌉.toNat : ℕ) : ℚ) := by
    rw [hcast]
    exact Int.le_ceil scale
  have hhead : ratios.headD 0 ∈ ratios := by
    cases ratios with
    | nil => exact absurd rfl hne
    | cons a t => simp
  by_cases hn : ⌈scale⌉.toNat = 1
  · refine ⟨0, [ratios.headD 0], by simp [scalingJobs, hn], ?_, ?_, fun _ => rfl⟩
    · rw [hn]
      simpa using hpos _ hhead
    · refine le_trans hscale_le ?_
      rw [hn]
      have h1h : (1 : ℚ) ≤ ((ratios.headD 0 : ℕ) : ℚ) := by exact_mod_cast hpos _ hhead
      simpa using h1h
  · have hnpos : (0 : ℚ) < ((⌈scale⌉.toNat : ℕ) : ℚ) := by
      exact_mod_cast hn1
    have hfuel : ((⌈scale⌉.toNat : ℕ) : ℚ) ≤ 2 ^ ⌈scale⌉.toNat := by
      exact_mod_cast (Nat.lt_two_pow ⌈scale⌉.toNat).le
    obtain ⟨js, hjs⟩ := decompLoop_total ratios hlast ⌈scale⌉.toNat _ hnpos hfuel
    have hsound := decompLoop_sound ratios hlast ⌈scale⌉.toNat _ js hnpos hjs
    refine ⟨⌈scale⌉.toNat, js, by simp [scalingJobs, hn, hjs], ?_, ?_, fun h => absurd h hn⟩
    · exact_mod_cast hsound
    · exact le_trans hscale_le hsound

/-- Witness for C2 at `ratios = [1, 2]`, `output_scale = 2`. -/
theorem claim_C2_witness :
    ∃ fuel js, scalingJobs [1, 2] fuel ⌈(2 : ℚ)⌉.toNat = some js ∧
      ⌈(2 : ℚ)⌉.toNat ≤ js.prod ∧ (2 : ℚ) ≤ (js.prod : ℚ) ∧
      (⌈(2 : ℚ)⌉.toNat = 1 → js = [List.headD [1, 2] 0]) :=
  claim_C2 [1, 2] 2 (by decide) (by decide) (by decide) (by decide) (by decide)

/-- Claim C3: in a loop iteration with `remaining > 1`, the algorithm appends
the first listed ratio `r ≥ remaining` (everything before it being too small)
and divides `remaining` by `r`; concretely, for `ratios = [2, 4, 8]` and
`remaining = 3` the produced step list is exactly `[4]`. -/
theorem claim_C3 :
    (∀ (l₁ l₂ : List ℕ) (r : ℕ) (rem : ℚ) (fuel : ℕ), 1 < rem →
        (∀ x ∈ l₁, (x : ℚ) < rem) → rem ≤ (r : ℚ) →
        decompLoop (l₁ ++ r :: l₂) (fuel + 1) rem =
          (decompLoop (l₁ ++ r :: l₂) fuel (rem / (r : ℚ))).map (fun js => r :: js)) ∧
    (∀ fuel, scalingJobs [2, 4, 8] (fuel + 1) 3 = some [4]) := by
  refine ⟨fun l₁ l₂ r rem fuel h1 hlt hr =>
    decompLoop_first_single l₁ l₂ r rem fuel h1 hlt hr, fun fuel => ?_⟩
  have h34 : ((3 : ℕ) : ℚ) / ((4 : ℕ) : ℚ) ≤ 1 := by
    push_cast
    norm_num
  have hstep := decompLoop_first_single [2] [8] 4 ((3 : ℕ) : ℚ) fuel
    (by push_cast; norm_num) (by intro x hx; simp at hx; subst hx; push_cast; norm_num)
    (by push_cast; norm_num)
  have : scalingJobs [2, 4, 8] (fuel + 1) 3 = decompLoop [2, 4, 8] (fuel + 1) ((3 : ℕ) : ℚ) := by
    norm_num [scalingJobs]
  rw [show ([2] ++ 4 :: [8] : List ℕ) = [2, 4, 8] from rfl] at hstep
  rw [this, hstep, decompLoop_le_one _ fuel h34]
  rfl

/-- Witness for C3 at `ratios = [2, 4, 8]`, `remaining = 3`, `fuel = 0`. -/
theorem claim_C3_witness :
    decompLoop ([2] ++ 4 :: [8]) (0 + 1) 3 =
      (decompLoop ([2] ++ 4 :: [8]) 0 (3 / ((4 : ℕ) : ℚ))).map (fun js => 4 :: js) :=
  claim_C3.1 [2] [8] 4 3 0 (by decide) (by decide) (by decide)

/-- Claim C4: when no single ratio suffices, the loop scans ordered pairs
`(i, j)` lexicographically (outer index ascending, inner index ascending
over the whole list) and appends the first pair with `i * j ≥ remaining`,
dividing by `i * j`; concretely for `ratios = [2, 3, 4]`, `remaining = 11`
the selected pair is `(3, 4)`, and for `ratios = [2]`,
`⌈output_scale⌉ = 8` the full step list is `[2, 2, 2]`. -/
theorem claim_C4 :
    (∀ (ratios : List ℕ) (rem : ℚ),
        firstPairGE ratios rem =
          (ratios.flatMap (fun i => ratios.map (fun j => (i, j)))).find?
            (fun p => decide (rem ≤ ((p.1 * p.2 : ℕ) : ℚ)))) ∧
    (∀ (ratios : List ℕ) (rem : ℚ) (i j fuel : ℕ), 1 < rem →
        firstRatioGE ratios rem = none → firstPairGE ratios rem = some (i, j) →
        decompLoop ratios (fuel + 1) rem =
          (decompLoop ratios fuel (rem / ((i * j : ℕ) : ℚ))).map (fun js => i :: j :: js)) ∧
    firstPairGE [2, 3, 4] 11 = some (3, 4) ∧
    (∀ fuel, scalingJobs [2] (fuel + 2) 8 = some [2, 2, 2]) := by
  refine ⟨pairScan_eq, fun ratios rem i j fuel h1 hfind hpair =>
    decompLoop_first_pair ratios rem i j fuel h1 hfind hpair, by decide, fun fuel => ?_⟩
  have hs1 : decompStep [2] ((8 : ℕ) : ℚ) = ([2], ((8 : ℕ) : ℚ) / ((2 : ℕ) : ℚ)) := by
    unfold decompStep
    rw [show firstRatioGE [2] ((8 : ℕ) : ℚ) = none from by decide,
      show firstPairGE [2] ((8 : ℕ) : ℚ) = none from by decide]
    rfl
  have h84 : ((8 : ℕ) : ℚ) / ((2 : ℕ) : ℚ) = ((4 : ℕ) : ℚ) := by
    push_cast
    norm_num
  have hstep2 := decompLoop_first_pair [2] ((4 : ℕ) : ℚ) 2 2 fuel
    (by push_cast; norm_num) (by decide) (by decide)
  have h441 : ((4 : ℕ) : ℚ) / ((2 * 2 : ℕ) : ℚ) ≤ 1 := by
    push_cast
    norm_num
  have : scalingJobs [2] (fuel + 2) 8 = decompLoop [2] (fuel + 2) ((8 : ℕ) : ℚ) := by
    norm_num [scalingJobs]
  rw [this, decompLoop_succ [2] (fuel + 1) (by push_cast; norm_num), hs1, h84, hstep2,
    decompLoop_le_one _ fuel h441]
  rfl

/-- Witness for C4 at `ratios = [2, 3, 4]`, `remaining = 11`, `fuel = 0`. -/
theorem claim_C4_witness :
    decompLoop [2, 3, 4] (0 + 1) 11 =
      (decompLoop [2, 3, 4] 0 (11 / ((3 * 4 : ℕ) : ℚ))).map (fun js => 3 :: 4 :: js) :=
  claim_C4.2.1 [2, 3, 4] 11 3 4 0 (by decide) (by decide) (by decide)

/-- Claim C10: the decomposition loop terminates for every integer
`remaining ≥ 1` whenever the ascending supported-ratio list has an element
`≥ 2`; and the precondition is necessary: if every supported ratio is `1`
and `remaining > 1`, no fuel makes the loop finish. -/
theorem claim_C10 :
    (∀ (ratios : List ℕ) (n : ℕ), ratios.Sorted (· ≤ ·) → (∃ r ∈ ratios, 2 ≤ r) →
        1 ≤ n → ∃ fuel js, decompLoop ratios fuel (n : ℚ) = some js) ∧
    (∀ (ratios : List ℕ) (rem : ℚ), ratios ≠ [] → (∀ r ∈ ratios, r = 1) → 1 < rem →
        ∀ fuel, decompLoop ratios fuel rem = none) := by
  constructor
  · intro ratios n hsort h2 hn
    obtain ⟨r, hr, hr2⟩ := h2
    have hlast : 2 ≤ ratios.getLastD 0 := le_trans hr2 (mem_le_getLastD hsort hr)
    refine ⟨n, decompLoop_total ratios hlast n (n : ℚ) (by exact_mod_cast hn) ?_⟩
    exact_mod_cast (Nat.lt_two_pow n).le
  · intro ratios rem hne hone h1 fuel
    exact decompLoop_all_one ratios hne hone fuel rem h1

/-- Witness for C10 at `ratios = [2]`, `remaining = 8` (termination) and
`ratios = [1]`, `remaining = 2`, `fuel = 5` (divergence). -/
theorem claim_C10_witness :
    (∃ fuel js, decompLoop [2] fuel ((8 : ℕ) : ℚ) = some js) ∧
    decompLoop [1] 5 2 = none :=
  ⟨claim_C10.1 [2] 8 (by decide) (by decide) (by decide),
   claim_C10.2 [1] 2 (by decide) (by decide) (by decide) 5⟩

/-! ### Claims C5 and C1 about the skip decision -/

/-- Claim C5: with a previous image, the worker's `difference_ratio` equals
the average of the per-channel mean absolute differences divided by 255 and
scaled to a percentage, and the skip-reuse branch is taken iff that ratio is
strictly below the job's `difference_threshold`. -/
theorem claim_C5 (img0 img1 : Img) (t : ℚ) :
    differenceRatioOf (some img0) img1 = specDiffPercent img0 img1 ∧
    (upscalerSkipDecision (some img0) img1 t = true ↔
      differenceRatioOf (some img0) img1 < t) := by
  constructor
  · show imageDiffPercent img0 img1 = specDiffPercent img0 img1
    unfold imageDiffPercent specDiffPercent
    rw [div_div]
  · simp [upscalerSkipDecision]

/-- Claim C1 is violated by the code: at `frame_index = 0` there is no
previous image, so `difference_ratio = 0`, which is strictly below any
positive threshold (here `10`), so the skip branch IS taken; the branch
reads buffer index `frame_index - 1 = -1`, which Python list indexing
resolves to the LAST slot (index 4 of a 5-slot buffer), not to an
unreachable statement. -/
theorem claim_C1 :
    (∀ img1 : Img, differenceRatioOf none img1 = 0) ∧
    upscalerSkipDecision none [[0]] 10 = true ∧
    skipBranchReadIndex 0 = -1 ∧
    pyListGet (List.replicate 5 (none : Option Img)) (skipBranchReadIndex 0) = some none := by
  exact ⟨fun _ => rfl, by decide, by decide, by decide⟩

/-! ### Claims C8 and C9 about the backend cache and GPU assignment -/

theorem runScalingJobList_append (num_gpus instance_number : ℕ) (s : WorkerCache)
    (p q : List (String × ℕ)) :
    runScalingJobList num_gpus instance_number s (p ++ q) =
      match runScalingJobList num_gpus instance_number s p with
      | Except.error e => Except.error e
      | Except.ok s' => runScalingJobList num_gpus instance_number s' q := by
  induction p generalizing s with
  | nil => rfl
  | cons k t ih =>
    show runScalingJobList num_gpus instance_number s (k :: (t ++ q)) = _
    rw [runScalingJobList, runScalingJobList]
    cases runScalingJob num_gpus instance_number s k.1 k.2 with
    | error e => rfl
    | ok s' => exact ih s'

/-- Master invariant for the cache loop with at least one GPU: it never
fails, the cache and the construction log hold the same keys, the log never
contains a key twice, the final cache is the initial one plus the keys
processed, constructions are never removed, and the number of
constructions of a key grows by one exactly when a previously uncached key
is processed. -/
theorem runScalingJobList_ok (num_gpus instance_number : ℕ) (hg : 0 < num_gpus) :
    ∀ (ks : List (String × ℕ)) (s : WorkerCache),
      (∀ k, k ∈ s.cache ↔ k ∈ s.constructions) → s.constructions.Nodup →
      ∃ s', runScalingJobList num_gpus instance_number s ks = Except.ok s' ∧
        (∀ k, k ∈ s'.cache ↔ k ∈ s'.constructions) ∧
        s'.constructions.Nodup ∧
        (∀ k, k ∈ s'.cache ↔ (k ∈ s.cache ∨ k ∈ ks)) ∧
        (∀ k, k ∈ s.constructions → k ∈ s'.constructions) ∧
        (∀ k, k ∉ s.cache →
          List.count k s'.constructions =
            List.count k s.constructions + (if k ∈ ks then 1 else 0)) ∧
        (∀ k, k ∈ s.cache →
          List.count k s'.constructions = List.count k s.constructions) := by
  intro ks
  induction ks with
  | nil =>
    intro s hiff hnd
    exact ⟨s, rfl, hiff, hnd, fun k => by simp, fun k hk => hk,
      fun k _ => by simp, fun k _ => rfl⟩
  | cons k₀ ks ih =>
    obtain ⟨a₀, r₀⟩ := k₀
    intro s hiff hnd
    by_cases hhit : (a₀, r₀) ∈ s.cache
    · obtain ⟨s', hrun, hiff', hnd', hcache', hmono', hcnt', hcnthit'⟩ := ih s hiff hnd
      refine ⟨s', ?_, hiff', hnd', ?_, hmono', ?_, hcnthit'⟩
      · rw [runScalingJobList, runScalingJob, if_pos hhit]
        exact hrun
      · intro k
        rw [hcache' k, List.mem_cons]
        constructor
        · rintro (h | h)
          · exact Or.inl h
          · exact Or.inr (Or.inr h)
        · rintro (h | h | h)
          · exact Or.inl h
          · subst h
            exact Or.inl hhit
          · exact Or.inr h
      · intro k hk
        have hne : k ≠ (a₀, r₀) := fun h => hk (h ▸ hhit)
        rw [hcnt' k hk]
        simp [List.mem_cons, hne]
    · have hcons : (a₀, r₀) ∉ s.constructions := fun h => hhit ((hiff _).2 h)
      have hiff₁ : ∀ k, k ∈ s.cache ++ [(a₀, r₀)] ↔ k ∈ s.constructions ++ [(a₀, r₀)] := by
        intro k
        simp [hiff k]
      have hnd₁ : (s.constructions ++ [(a₀, r₀)]).Nodup := by
        rw [List.nodup_append]
        exact ⟨hnd, List.nodup_singleton _, by simpa using hcons⟩
      obtain ⟨s', hrun, hiff', hnd', hcache', hmono', hcnt', hcnthit'⟩ :=
        ih ⟨s.cache ++ [(a₀, r₀)], s.constructions ++ [(a₀, r₀)]⟩ hiff₁ hnd₁
      have hstep : runScalingJobList num_gpus instance_number s ((a₀, r₀) :: ks) =
          runScalingJobList num_gpus instance_number
            ⟨s.cache ++ [(a₀, r₀)], s.constructions ++ [(a₀, r₀)]⟩ ks := by
        rw [runScalingJobList, runScalingJob, if_neg hhit, pyMod,
          if_neg (Nat.pos_iff_ne_zero.1 hg)]
      refine ⟨s', by rw [hstep]; exact hrun, hiff', hnd', ?_, ?_, ?_, ?_⟩
      · intro k
        rw [hcache' k, List.mem_cons]
        show k ∈ s.cache ++ [(a₀, r₀)] ∨ k ∈ ks ↔ _
        simp only [List.mem_append, List.mem_singleton]
        tauto
      · intro k hk
        refine hmono' k ?_
        show k ∈ s.constructions ++ [(a₀, r₀)]
        exact List.mem_append.2 (Or.inl hk)
      · intro k hk
        by_cases hk0 : k = (a₀, r₀)
        · subst hk0
          have hk1 : (a₀, r₀) ∈ s.cache ++ [(a₀, r₀)] := by simp
          rw [hcnthit' (a₀, r₀) hk1]
          show List.count (a₀, r₀) (s.constructions ++ [(a₀, r₀)]) = _
          simp [List.count_append]
        · have hk1 : k ∉ s.cache ++ [(a₀, r₀)] := by
            simp only [List.mem_append, List.mem_singleton]
            rintro (h | h)
            · exact hk h
            · exact hk0 h
          rw [hcnt' k hk1]
          show List.count k (s.constructions ++ [(a₀, r₀)]) + _ = _
          rw [List.count_append]
          have hc0 : List.count k [(a₀, r₀)] = 0 := by
            simp [List.count_singleton, hk0]
          rw [hc0]
          simp [List.mem_cons, hk0]
      · intro k hk
        have hne : k ≠ (a₀, r₀) := fun h => hhit (h ▸ hk)
        have hk1 : k ∈ s.cache ++ [(a₀, r₀)] := List.mem_append.2 (Or.inl hk)
        rw [hcnthit' k hk1]
        show List.count k (s.constructions ++ [(a₀, r₀)]) = _
        rw [List.count_append]
        simp [List.count_singleton, hne]

/-- Claim C8: within one worker with at least one GPU, for every sequence
of `(algorithm, ratio)` keys, a given key's backend is constructed exactly
once iff some job needs it; the key stays cached, and every entry cached
after any prefix of the run is still cached at the end (no eviction or
replacement). -/
theorem claim_C8 (num_gpus instance_number : ℕ) (hg : 0 < num_gpus)
    (ks : List (String × ℕ)) (k : String × ℕ) :
    ∃ final, runScalingJobList num_gpus instance_number ⟨[], []⟩ ks = Except.ok final ∧
      List.count k final.constructions = (if k ∈ ks then 1 else 0) ∧
      (k ∈ ks → k ∈ final.cache) ∧
      (∀ (p q : List (String × ℕ)) (s₁ : WorkerCache), ks = p ++ q →
        runScalingJobList num_gpus instance_number ⟨[], []⟩ p = Except.ok s₁ →
        ∀ key ∈ s₁.cache, key ∈ final.cache) := by
  obtain ⟨final, hrun, hiff, hnd, hcache, hmono, hcnt, hcnthit⟩ :=
    runScalingJobList_ok num_gpus instance_number hg ks ⟨[], []⟩ (by simp) (by simp)
  refine ⟨final, hrun, ?_, ?_, ?_⟩
  · have := hcnt k (by simp)
    simpa using this
  · intro hk
    exact (hcache k).2 (Or.inr hk)
  · intro p q s₁ hpq hp key hkey
    obtain ⟨s₁', hp', hiff₁, hnd₁, _, _, _, _⟩ :=
      runScalingJobList_ok num_gpus instance_number hg p ⟨[], []⟩ (by simp) (by simp)
    have hs₁ : s₁' = s₁ := by
      rw [hp] at hp'
      exact Except.ok.inj hp'.symm
    rw [hs₁] at hiff₁ hnd₁
    obtain ⟨s₂, hq, _, _, hcache₂, _, _, _⟩ :=
      runScalingJobList_ok num_gpus instance_number hg q s₁ hiff₁ hnd₁
    have hfin : final = s₂ := by
      have happ := runScalingJobList_append num_gpus instance_number ⟨[], []⟩ p q
      rw [hp] at happ
      rw [← hpq, hrun] at happ
      have happ2 : Except.ok final = runScalingJobList num_gpus instance_number s₁ q := happ
      rw [hq] at happ2
      exact Except.ok.inj happ2
    subst hfin
    exact (hcache₂ key).2 (Or.inl hkey)

/-- Witness for C8 at one GPU and two jobs requesting the same key. -/
theorem claim_C8_witness :
    ∃ final,
      runScalingJobList 1 0 ⟨[], []⟩ [("waifu2x", 2), ("waifu2x", 2)] = Except.ok final ∧
      List.count ("waifu2x", 2) final.constructions =
        (if ("waifu2x", 2) ∈ [("waifu2x", 2), ("waifu2x", 2)] then 1 else 0) ∧
      (("waifu2x", 2) ∈ [("waifu2x", 2), ("waifu2x", 2)] → ("waifu2x", 2) ∈ final.cache) ∧
      (∀ (p q : List (String × ℕ)) (s₁ : WorkerCache),
        [("waifu2x", 2), ("waifu2x", 2)] = p ++ q →
        runScalingJobList 1 0 ⟨[], []⟩ p = Except.ok s₁ →
        ∀ key ∈ s₁.cache, key ∈ final.cache) :=
  claim_C8 1 0 (by decide) [("waifu2x", 2), ("waifu2x", 2)] ("waifu2x", 2)

/-- Claim C9: with zero detected GPUs, every cache miss — in particular the
first key of any non-empty run, since the cache starts empty — hits the
unguarded `instance_number % num_gpus` and raises `ZeroDivisionError`; and
`num_nvidia_gpus` returns `0` when `nvidia-smi` cannot be spawned. -/
theorem claim_C9 :
    (∀ (instance_number : ℕ) (s : WorkerCache) (algorithm : String) (job : ℕ),
        (algorithm, job) ∉ s.cache →
        runScalingJob 0 instance_number s algorithm job =
          Except.error PyError.zeroDivisionError) ∧
    (∀ (instance_number : ℕ) (k : String × ℕ) (ks : List (String × ℕ)),
        runScalingJobList 0 instance_number ⟨[], []⟩ (k :: ks) =
          Except.error PyError.zeroDivisionError) ∧
    num_nvidia_gpus none = 0 := by
  refine ⟨?_, ?_, rfl⟩
  · intro inst s algo job hmiss
    rw [runScalingJob, if_neg hmiss, pyMod, if_pos rfl]
  · intro inst k ks
    rw [runScalingJobList, runScalingJob, if_neg (by simp), pyMod, if_pos rfl]

/-- Witness for C9: worker `3`, empty cache, key `("waifu2x", 2)`. -/
theorem claim_C9_witness :
    runScalingJob 0 3 ⟨[], []⟩ "waifu2x" 2 = Except.error PyError.zeroDivisionError :=
  claim_C9.1 3 ⟨[], []⟩ "waifu2x" 2 (by simp)

/-! ### Claim C6 about the encode stage -/

theorem getD_set_self_opt {α : Type} (l : List (Option α)) (i : ℕ) (a : Option α)
    (h : i < l.length) : (l.set i a).getD i none = a := by
  simp [List.getD_eq_getElem?_getD, List.getElem?_set_self, h]

theorem getD_set_ne_opt {α : Type} (l : List (Option α)) (i j : ℕ) (a : Option α)
    (h : i ≠ j) : (l.set i a).getD j none = l.getD j none := by
  simp [List.getD_eq_getElem?_getD, List.getElem?_set_ne, h]

theorem getD_replicate_none {α : Type} (n j : ℕ) :
    (List.replicate n (none : Option α)).getD j none = none := by
  simp [List.getD_eq_getElem?_getD]

theorem expectedLog_succ {α : Type} (frames : List α) (k : ℕ) (f : α)
    (h : frames.get? k = some f) :
    expectedLog frames (k + 1) =
      expectedLog frames k ++
        [EncAction.write k f, EncAction.clear k, EncAction.increment] := by
  rw [expectedLog, h]

/-- Unfolding of a consuming encoder iteration. -/
theorem encTick_consume_eq {α : Type} (total : ℕ) (s : EncState α) (f : α)
    (hrun : s.running = true) (hpau : s.pause = false) (hlt : s.frame_index < total)
    (hslot : s.buffer.getD s.frame_index none = some f) :
    encTick total s =
      ⟨s.running, s.pause, s.frame_index + 1, s.processed + 1,
        s.buffer.set s.frame_index none, s.written ++ [f],
        s.log ++ [EncAction.write s.frame_index f, EncAction.clear s.frame_index,
          EncAction.increment]⟩ := by
  rw [encTick, if_pos ⟨hrun, hlt⟩, if_neg (by simp [hpau]), hslot]

/-- Unfolding of a polling encoder iteration (slot still empty). -/
theorem encTick_poll_eq {α : Type} (total : ℕ) (s : EncState α)
    (hslot : s.buffer.getD s.frame_index none = none) :
    encTick total s = s := by
  rw [encTick]
  by_cases hc : s.running = true ∧ s.frame_index < total
  · rw [if_pos hc]
    by_cases hp : s.pause = true
    · rw [if_pos hp]
    · rw [if_neg hp, hslot]
  · rw [if_neg hc]

/-- Unfolding of a worker fill event. -/
theorem encStep_fill_eq {α : Type} (total : ℕ) (s : EncState α) (i : ℕ) (f : α) :
    encStep total s (EncEvent.fill i f) =
      ⟨s.running, s.pause, s.frame_index, s.processed, s.buffer.set i (some f),
        s.written, s.log⟩ := rfl

/-- One encoder iteration preserves the invariant, never moves the frame
index backwards, keeps covered slots covered, and keeps untouched empty
slots ahead of the frame index empty. -/
theorem encTick_inv {α : Type} (frames : List α) (s : EncState α) (h : EncInv frames s) :
    EncInv frames (encTick frames.length s) ∧
    s.frame_index ≤ (encTick frames.length s).frame_index ∧
    (∀ i, coveredAt s i → coveredAt (encTick frames.length s) i) ∧
    (∀ i, s.frame_index ≤ i → s.buffer.getD i none = none →
      (encTick frames.length s).frame_index ≤ i ∧
      (encTick frames.length s).buffer.getD i none = none) := by
  obtain ⟨hrun, hpau, hlen, hfi, hproc, hwr, hlog, hcons, hval⟩ := h
  by_cases hlt : s.frame_index < frames.length
  · cases hslot : s.buffer.getD s.frame_index none with
    | none =>
      rw [encTick_poll_eq frames.length s hslot]
      exact ⟨⟨hrun, hpau, hlen, hfi, hproc, hwr, hlog, hcons, hval⟩, le_refl _,
        fun i hi => hi, fun i h1 h2 => ⟨h1, h2⟩⟩
    | some f =>
      have hff : frames.get? s.frame_index = some f := by
        rw [← hval s.frame_index (by rw [hslot]; simp)]
        exact hslot
      have hfi_len : s.frame_index < s.buffer.length := by
        rw [hlen]
        exact hlt
      rw [encTick_consume_eq frames.length s f hrun hpau hlt hslot]
      dsimp only [EncInv, coveredAt]
      refine ⟨⟨hrun, hpau, by simpa using hlen, hlt, by simpa using hproc, ?_, ?_, ?_, ?_⟩,
        Nat.le_succ _, ?_, ?_⟩
      · rw [hwr, List.take_succ]
        rw [List.get?_eq_getElem?] at hff
        simp [hff]
      · rw [hlog, expectedLog_succ frames s.frame_index f hff]
      · intro j hj
        rcases Nat.lt_or_ge j s.frame_index with hj' | hj'
        · rw [getD_set_ne_opt _ _ _ _ (Nat.ne_of_gt hj')]
          exact hcons j hj'
        · have : j = s.frame_index := by omega
          subst this
          exact getD_set_self_opt _ _ _ hfi_len
      · intro j hj
        by_cases hji : j = s.frame_index
        · subst hji
          rw [getD_set_self_opt _ _ _ hfi_len] at hj
          exact absurd rfl hj
        · rw [getD_set_ne_opt _ _ _ _ (fun hx => hji hx.symm)] at hj ⊢
          exact hval j hj
      · intro i hi
        rcases hi with hi | hi
        · exact Or.inl (Nat.lt_succ_of_lt hi)
        · by_cases hii : i = s.frame_index
          · exact Or.inl (by omega)
          · refine Or.inr ?_
            rw [getD_set_ne_opt _ _ _ _ (fun hx => hii hx.symm)]
            exact hi
      · intro i h1 h2
        have hne : i ≠ s.frame_index := fun hx => by
          rw [hx, hslot] at h2
          exact Option.noConfusion h2
        constructor
        · omega
        · rw [getD_set_ne_opt _ _ _ _ (fun hx => hne hx.symm)]
          exact h2
  · have hstop : encTick frames.length s = s := by
      rw [encTick, if_neg (fun hc => hlt hc.2)]
    rw [hstop]
    exact ⟨⟨hrun, hpau, hlen, hfi, hproc, hwr, hlog, hcons, hval⟩, le_refl _,
      fun i hi => hi, fun i h1 h2 => ⟨h1, h2⟩⟩

/-- When the invariant holds, the loop condition holds, and the current slot
is filled, one encoder iteration consumes it and advances. -/
theorem encTick_progress {α : Type} (frames : List α) (s : EncState α)
    (h : EncInv frames s) (hlt : s.frame_index < frames.length)
    (hfill : s.buffer.getD s.frame_index none ≠ none) :
    (encTick frames.length s).frame_index = s.frame_index + 1 := by
  obtain ⟨hrun, hpau, _, _, _, _, _, _, _⟩ := h
  cases hslot : s.buffer.getD s.frame_index none with
  | none => exact absurd hslot hfill
  | some f => rw [encTick_consume_eq frames.length s f hrun hpau hlt hslot]

/-- A worker's fill of a fresh slot with the slot's own frame preserves the
invariant, the frame index, and coverage, covers the slot, and leaves all
other slots untouched. -/
theorem encFill_inv {α : Type} (frames : List α) (s : EncState α) (i : ℕ) (f : α)
    (h : EncInv frames s) (hif : frames.get? i = some f)
    (hfresh : s.frame_index ≤ i) :
    EncInv frames (encStep frames.length s (EncEvent.fill i f)) ∧
    (encStep frames.length s (EncEvent.fill i f)).frame_index = s.frame_index ∧
    coveredAt (encStep frames.length s (EncEvent.fill i f)) i ∧
    (∀ j, coveredAt s j → coveredAt (encStep frames.length s (EncEvent.fill i f)) j) ∧
    (∀ j, j ≠ i →
      (encStep frames.length s (EncEvent.fill i f)).buffer.getD j none =
        s.buffer.getD j none) := by
  obtain ⟨hrun, hpau, hlen, hfi, hproc, hwr, hlog, hcons, hval⟩ := h
  have hilen : i < frames.length := by
    by_contra hc
    rw [List.get?_eq_getElem?, List.getElem?_eq_none (by omega)] at hif
    exact Option.noConfusion hif
  have hibuf : i < s.buffer.length := by
    rw [hlen]
    exact hilen
  have hbufne : ∀ j, j ≠ i →
      (s.buffer.set i (some f)).getD j none = s.buffer.getD j none :=
    fun j hj => getD_set_ne_opt _ _ _ _ (fun hx => hj hx.symm)
  have hself : (s.buffer.set i (some f)).getD i none = some f :=
    getD_set_self_opt _ _ _ hibuf
  rw [encStep_fill_eq]
  dsimp only [EncInv, coveredAt]
  refine ⟨⟨hrun, hpau, by simpa using hlen, hfi, hproc, hwr, hlog, ?_, ?_⟩, rfl, ?_, ?_, ?_⟩
  · intro j hj
    rw [hbufne j (by omega)]
    exact hcons j hj
  · intro j hj
    by_cases hji : j = i
    · subst hji
      rw [hself]
      exact hif.symm
    · rw [hbufne j hji] at hj ⊢
      exact hval j hj
  · refine Or.inr ?_
    rw [hself]
    exact fun hx => Option.noConfusion hx
  · intro j hj
    rcases hj with hj | hj
    · exact Or.inl hj
    · by_cases hji : j = i
      · subst hji
        refine Or.inr ?_
        rw [hself]
        exact fun hx => Option.noConfusion hx
      · refine Or.inr ?_
        rw [hbufne j hji]
        exact hj
  · exact hbufne

/-- Running any interleaving of fresh, distinct, correct fills with encoder
iterations preserves the invariant and makes every filled slot covered. -/
theorem encRun_master {α : Type} (frames : List α) :
    ∀ (events : List (EncEvent α)) (s : EncState α),
      EncInv frames s →
      (∀ i f, EncEvent.fill i f ∈ events → frames.get? i = some f) →
      (fillIndices events).Nodup →
      (∀ i ∈ fillIndices events, s.frame_index ≤ i ∧ s.buffer.getD i none = none) →
      EncInv frames (encRun frames.length s events) ∧
      (∀ i ∈ fillIndices events, coveredAt (encRun frames.length s events) i) ∧
      (∀ i, coveredAt s i → coveredAt (encRun frames.length s events) i) := by
  intro events
  induction events with
  | nil =>
    intro s hinv _ _ _
    exact ⟨hinv, by simp [fillIndices], fun i hi => hi⟩
  | cons e es ih =>
    intro s hinv hfill hnd hfresh
    cases e with
    | tick =>
      obtain ⟨hinv', _, hcov', hfresh'⟩ := encTick_inv frames s hinv
      have hstep : encRun frames.length s (EncEvent.tick :: es) =
          encRun frames.length (encTick frames.length s) es := rfl
      have hfind : fillIndices (EncEvent.tick :: es) = fillIndices es := rfl
      rw [hfind] at hnd hfresh
      obtain ⟨hi1, hi2, hi3⟩ := ih (encTick frames.length s) hinv'
        (fun i f hm => hfill i f (List.mem_cons_of_mem _ hm)) hnd
        (fun i hm => hfresh' i (hfresh i hm).1 (hfresh i hm).2)
      rw [hstep, hfind]
      exact ⟨hi1, hi2, fun i hci => hi3 i (hcov' i hci)⟩
    | fill i f =>
      have hif := hfill i f (List.mem_cons_self _ _)
      have hfr := hfresh i (by rw [show fillIndices (EncEvent.fill i f :: es) =
        i :: fillIndices es from rfl]; exact List.mem_cons_self _ _)
      obtain ⟨hinv', hfieq, hcovi, hcovpres, hbufne⟩ := encFill_inv frames s i f hinv hif hfr.1
      have hstep : encRun frames.length s (EncEvent.fill i f :: es) =
          encRun frames.length (encStep frames.length s (EncEvent.fill i f)) es := rfl
      have hfind : fillIndices (EncEvent.fill i f :: es) = i :: fillIndices es := rfl
      rw [hfind] at hnd hfresh
      have hnd' : (fillIndices es).Nodup := hnd.of_cons
      have hne : ∀ j ∈ fillIndices es, j ≠ i :=
        fun j hj hji => (List.nodup_cons.1 hnd).1 (hji ▸ hj)
      obtain ⟨hi1, hi2, hi3⟩ := ih (encStep frames.length s (EncEvent.fill i f)) hinv'
        (fun i' f' hm => hfill i' f' (List.mem_cons_of_mem _ hm)) hnd'
        (fun j hj => ⟨hfieq ▸ (hfresh j (List.mem_cons_of_mem _ hj)).1,
          (hbufne j (hne j hj)).trans (hfresh j (List.mem_cons_of_mem _ hj)).2⟩)
      rw [hstep, hfind]
      refine ⟨hi1, ?_, fun j hcj => hi3 j (hcovpres j hcj)⟩
      intro i' hi'
      rcases List.mem_cons.1 hi' with hi' | hi'
      · subst hi'
        exact hi3 i' hcovi
      · exact hi2 i' hi'

/-- After every slot below `total` is covered, enough encoder iterations
drain the whole buffer in order. -/
theorem encTicks_complete {α : Type} (frames : List α) :
    ∀ (T : ℕ) (s : EncState α),
      EncInv frames s →
      (∀ i, i < frames.length → coveredAt s i) →
      frames.length ≤ s.frame_index + T →
      EncInv frames (encRun frames.length s (List.replicate T EncEvent.tick)) ∧
      (encRun frames.length s (List.replicate T EncEvent.tick)).frame_index =
        frames.length := by
  intro T
  induction T with
  | zero =>
    intro s hinv hcov hle
    exact ⟨hinv, le_antisymm hinv.2.2.2.1 (by simpa using hle)⟩
  | succ T ih =>
    intro s hinv hcov hle
    have hstep : encRun frames.length s (List.replicate (T + 1) EncEvent.tick) =
        encRun frames.length (encTick frames.length s) (List.replicate T EncEvent.tick) := by
      rw [List.replicate_succ]
      rfl
    obtain ⟨hinv', hle', hcov', _⟩ := encTick_inv frames s hinv
    by_cases hfi : s.frame_index = frames.length
    · have hnoop : encTick frames.length s = s := by
        rw [encTick, if_neg (fun hc => absurd hc.2 (by omega))]
      rw [hstep, hnoop]
      exact ih s hinv hcov (by omega)
    · have hlt : s.frame_index < frames.length := lt_of_le_of_ne hinv.2.2.2.1 hfi
      have hcovfi := hcov s.frame_index hlt
      have hfill : s.buffer.getD s.frame_index none ≠ none := by
        rcases hcovfi with hc | hc
        · omega
        · exact hc
      have hprog := encTick_progress frames s hinv hlt hfill
      rw [hstep]
      exact ih (encTick frames.length s) hinv'
        (fun i hi => hcov' i (hcov i hi)) (by omega)

/-- Claim C6: for every decoded frame list and every interleaved run in
which each buffer slot is filled exactly once with its own frame and the
encoder then gets at least `N` iterations, the Encode Stage consumes
indices `0..N-1` exactly once each in strictly increasing order, performing
write-then-clear-then-increment for each; at completion the Processed
Counter equals `N`, the written byte stream is the frame list in order,
and every slot is cleared. -/
theorem claim_C6 (α : Type) (frames : List α) (evs : List (EncEvent α)) (T : ℕ)
    (h1 : ∀ i f, EncEvent.fill i f ∈ evs → frames.get? i = some f)
    (h2 : (fillIndices evs).Nodup)
    (h3 : ∀ i, i < frames.length → i ∈ fillIndices evs)
    (hT : frames.length ≤ T) :
    (encRun frames.length (encInit α frames.length)
        (evs ++ List.replicate T EncEvent.tick)).log = expectedLog frames frames.length ∧
    (encRun frames.length (encInit α frames.length)
        (evs ++ List.replicate T EncEvent.tick)).processed = frames.length ∧
    (encRun frames.length (encInit α frames.length)
        (evs ++ List.replicate T EncEvent.tick)).written = frames ∧
    (∀ j, j < frames.length →
      (encRun frames.length (encInit α frames.length)
        (evs ++ List.replicate T EncEvent.tick)).buffer.getD j none = none) := by
  have hinv0 : EncInv frames (encInit α frames.length) := by
    refine ⟨rfl, rfl, by simp [encInit], by simp [encInit], rfl, by simp [encInit], rfl,
      fun j hj => ?_, fun j hbad => ?_⟩
    · exact absurd hj (by simp [encInit])
    · exact absurd (getD_replicate_none frames.length j) hbad
  have hfresh0 : ∀ i ∈ fillIndices evs,
      (encInit α frames.length).frame_index ≤ i ∧
      (encInit α frames.length).buffer.getD i none = none :=
    fun i _ => ⟨Nat.zero_le i, getD_replicate_none _ _⟩
  obtain ⟨hinv1, hcov1, _⟩ := encRun_master frames evs (encInit α frames.length) hinv0 h1 h2 hfresh0
  have hcovN : ∀ i, i < frames.length →
      coveredAt (encRun frames.length (encInit α frames.length) evs) i :=
    fun i hi => hcov1 i (h3 i hi)
  have hTle : frames.length ≤
      (encRun frames.length (encInit α frames.length) evs).frame_index + T := by
    omega
  obtain ⟨hinvf, hfif⟩ := encTicks_complete frames T _ hinv1 hcovN hTle
  have hsplit : encRun frames.length (encInit α frames.length)
      (evs ++ List.replicate T EncEvent.tick) =
      encRun frames.length (encRun frames.length (encInit α frames.length) evs)
        (List.replicate T EncEvent.tick) :=
    List.foldl_append _ _ _ _
  rw [hsplit]
  obtain ⟨_, _, _, _, hproc, hwr, hlog, hconsf, _⟩ := hinvf
  refine ⟨?_, ?_, ?_, ?_⟩
  · rw [hlog, hfif]
  · rw [hproc, hfif]
  · rw [hwr, hfif, List.take_length]
  · intro j hj
    exact hconsf j (by omega)

/-- Witness for C6: two frames, fills interleaved with a tick, two trailing
ticks. -/
theorem claim_C6_witness :
    (encRun 2 (encInit ℕ 2)
        ([EncEvent.fill 0 5, EncEvent.tick, EncEvent.fill 1 7] ++
          List.replicate 2 EncEvent.tick)).log = expectedLog [5, 7] 2 ∧
    (encRun 2 (encInit ℕ 2)
        ([EncEvent.fill 0 5, EncEvent.tick, EncEvent.fill 1 7] ++
          List.replicate 2 EncEvent.tick)).processed = 2 ∧
    (encRun 2 (encInit ℕ 2)
        ([EncEvent.fill 0 5, EncEvent.tick, EncEvent.fill 1 7] ++
          List.replicate 2 EncEvent.tick)).written = [5, 7] ∧
    (∀ j, j < 2 →
      (encRun 2 (encInit ℕ 2)
        ([EncEvent.fill 0 5, EncEvent.tick, EncEvent.fill 1 7] ++
          List.replicate 2 EncEvent.tick)).buffer.getD j none = none) :=
  claim_C6 ℕ [5, 7] [EncEvent.fill 0 5, EncEvent.tick, EncEvent.fill 1 7] 2
    (by intro i f hm
        simp only [List.mem_cons, List.not_mem_nil, or_false] at hm
        rcases hm with h | h | h
        · cases h
          rfl
        · cases h
        · cases h
          rfl)
    (by decide) (by decide) (by decide)

/-! ### Claim C7 about the decode stage -/

theorem decoderLoop_empty (w h : ℕ) (stream : List ℕ)
    (h0 : (stream.take (3 * w * h)).length = 0) :
    decoderLoop w h stream = ([], none) := by
  rw [decoderLoop, dif_pos h0]

theorem decoderLoop_short (w h : ℕ) (stream : List ℕ)
    (h0 : (stream.take (3 * w * h)).length ≠ 0)
    (h1 : (stream.take (3 * w * h)).length < 3 * w * h) :
    decoderLoop w h stream = ([], some DecError.valueError) := by
  rw [decoderLoop, dif_neg h0, if_pos h1]

theorem decoderLoop_full (w h : ℕ) (stream : List ℕ)
    (h0 : (stream.take (3 * w * h)).length ≠ 0)
    (h1 : ¬(stream.take (3 * w * h)).length < 3 * w * h) :
    decoderLoop w h stream =
      (stream.take (3 * w * h) :: (decoderLoop w h (stream.drop (3 * w * h))).1,
        (decoderLoop w h (stream.drop (3 * w * h))).2) := by
  rw [decoderLoop, dif_neg h0, if_neg h1]

theorem decoderLoop_spec_aux (w h : ℕ) (hw : 0 < w) (hh : 0 < h) :
    ∀ (k : ℕ) (stream : List ℕ), stream.length ≤ k →
      (∀ f ∈ (decoderLoop w h stream).1, f.length = 3 * w * h) ∧
      (stream.length % (3 * w * h) = 0 →
        (decoderLoop w h stream).2 = none ∧
        (decoderLoop w h stream).1.length = stream.length / (3 * w * h)) ∧
      (stream.length % (3 * w * h) ≠ 0 →
        (decoderLoop w h stream).2 = some DecError.valueError) := by
  have hn : 0 < 3 * w * h := by positivity
  intro k
  induction k with
  | zero =>
    intro stream hlen
    have hstream : stream.length = 0 := Nat.le_zero.1 hlen
    have hempty : decoderLoop w h stream = ([], none) :=
      decoderLoop_empty w h stream (by simp [List.length_take, hstream])
    rw [hempty]
    refine ⟨by simp, fun _ => ⟨rfl, by simp [hstream]⟩, fun hmod => ?_⟩
    exact absurd (by simp [hstream]) hmod
  | succ k ih =>
    intro stream hlen
    rcases Nat.eq_zero_or_pos stream.length with hz | hpos
    · have hempty : decoderLoop w h stream = ([], none) :=
        decoderLoop_empty w h stream (by simp [List.length_take, hz])
      rw [hempty]
      refine ⟨by simp, fun _ => ⟨rfl, by simp [hz]⟩, fun hmod => ?_⟩
      exact absurd (by simp [hz]) hmod
    · have htake : (stream.take (3 * w * h)).length = min (3 * w * h) stream.length :=
        List.length_take _ _
      rcases Nat.lt_or_ge stream.length (3 * w * h) with hcase | hcase
      · have hshort : decoderLoop w h stream = ([], some DecError.valueError) :=
          decoderLoop_short w h stream (by omega) (by omega)
        rw [hshort]
        refine ⟨by simp, fun hmod => ?_, fun _ => rfl⟩
        rw [Nat.mod_eq_of_lt hcase] at hmod
        omega
      · have hfull := decoderLoop_full w h stream (by omega) (by omega)
        have hdrop : (stream.drop (3 * w * h)).length = stream.length - 3 * w * h :=
          List.length_drop _ _
        obtain ⟨ih1, ih2, ih3⟩ := ih (stream.drop (3 * w * h)) (by omega)
        have hmodeq : stream.length % (3 * w * h) =
            (stream.drop (3 * w * h)).length % (3 * w * h) := by
          rw [hdrop]
          exact Nat.mod_eq_sub_mod hcase
        refine ⟨?_, fun hmod => ?_, fun hmod => ?_⟩
        · intro f hf
          rw [hfull] at hf
          rcases List.mem_cons.1 hf with hf | hf
          · rw [hf, htake]
            omega
          · exact ih1 f hf
        · rw [hfull]
          obtain ⟨he, hc⟩ := ih2 (by rw [← hmodeq]; exact hmod)
          refine ⟨he, ?_⟩
          show (decoderLoop w h (stream.drop (3 * w * h))).1.length + 1 = _
          rw [hc, hdrop, Nat.div_eq_sub_div hn hcase]
        · rw [hfull]
          exact ih3 (by rw [← hmodeq]; exact hmod)

/-- Claim C7: with positive frame dimensions, each decoder iteration reads
exactly `3 * width * height` bytes: an empty read stops the stage cleanly
with its terminal exception unset; a short first read stops it immediately
with `ValueError` recorded and no frame emitted and no retry; every emitted
frame is one full read; a stream of whole frames ends cleanly with all
frames emitted, while a trailing partial frame ends with the recorded
`ValueError`. -/
theorem claim_C7 (w h : ℕ) (stream : List ℕ) (hw : 0 < w) (hh : 0 < h) :
    (stream.length = 0 → decoderLoop w h stream = ([], none)) ∧
    (0 < stream.length → stream.length < 3 * w * h →
      decoderLoop w h stream = ([], some DecError.valueError)) ∧
    (∀ f ∈ (decoderLoop w h stream).1, f.length = 3 * w * h) ∧
    (stream.length % (3 * w * h) = 0 →
      (decoderLoop w h stream).2 = none ∧
      (decoderLoop w h stream).1.length = stream.length / (3 * w * h)) ∧
    (stream.length % (3 * w * h) ≠ 0 →
      (decoderLoop w h stream).2 = some DecError.valueError) := by
  obtain ⟨h1, h2, h3⟩ := decoderLoop_spec_aux w h hw hh stream.length stream (le_refl _)
  refine ⟨fun hz => decoderLoop_empty w h stream (by simp [List.length_take, hz]),
    fun hpos hlt => ?_, h1, h2, h3⟩
  have htake : (stream.take (3 * w * h)).length = min (3 * w * h) stream.length :=
    List.length_take _ _
  exact decoderLoop_short w h stream (by omega) (by omega)

/-- Witness for C7 at `width = height = 1` (frame size 3): empty stream,
short stream, stream with a trailing partial frame, stream of two whole
frames. -/
theorem claim_C7_witness :
    decoderLoop 1 1 [] = ([], none) ∧
    decoderLoop 1 1 [9, 9] = ([], some DecError.valueError) ∧
    (decoderLoop 1 1 [1, 2, 3, 4]).2 = some DecError.valueError ∧
    (decoderLoop 1 1 [1, 2, 3, 4, 5, 6]).2 = none :=
  ⟨(claim_C7 1 1 [] Nat.one_pos Nat.one_pos).1 rfl,
   (claim_C7 1 1 [9, 9] Nat.one_pos Nat.one_pos).2.1 (by decide) (by decide),
   (claim_C7 1 1 [1, 2, 3, 4] Nat.one_pos Nat.one_pos).2.2.2.2 (by decide),
   ((claim_C7 1 1 [1, 2, 3, 4, 5, 6] Nat.one_pos Nat.one_pos).2.2.2.1 (by decide)).1⟩

